import Mathlib

/-!
Verification of the evacuation-simulation core (src/simulation.py).

The Python source is shallowly embedded below: grids and temperature fields
become functions over integer coordinates, Python floats become rationals,
`float("inf")` sentinels become `Option` values (`none` = infinity), and the
simulation's random draws become explicit oracle inputs, so every theorem
quantifies over all possible random outcomes.
-/

namespace Evac

/-! ## Cell types and health states (simulation.py lines 22-29) -/

def EMPTY : ℕ := 0
def WALL : ℕ := 1
def EXIT : ℕ := 2
def FIRE : ℕ := 3
def SMOKE : ℕ := 4

def HEALTHY : ℕ := 0
def INJURED : ℕ := 1
def FATALLY_INJURED : ℕ := 2
def INCAPACITATED : ℕ := 3

/-! ## Config constants (lines 31-45) -/

def EXIT_CAPACITY_PER_TICK : ℕ := 1

def AMBIENT_TEMP : ℚ := 20
def FIRE_TEMP : ℚ := 600
def THERMAL_DIFFUSIVITY : ℚ := 5 / 100
def WALL_INSULATION : ℚ := 3 / 10
def SAFE_TEMP_THRESHOLD : ℚ := 50

/-! ## Exposure threshold tables (lines 67-120) -/

/-- `HEAT_THRESHOLDS` (lines 67-84): each row is
`(temperature, non_fatal_ticks, fatal_ticks, incapacitation_ticks)`. -/
def HEAT_THRESHOLDS : List (ℚ × ℕ × ℕ × ℕ) :=
  [(50, 240, 480, 720),
   (60, 120, 240, 360),
   (70, 68, 136, 204),
   (80, 40, 80, 120),
   (90, 26, 52, 78),
   (100, 16, 32, 48),
   (110, 11, 22, 32),
   (120, 8, 16, 24),
   (130, 5, 10, 16),
   (140, 4, 8, 12),
   (150, 3, 7, 10),
   (160, 3, 5, 8),
   (170, 2, 4, 7),
   (180, 2, 3, 5),
   (200, 1, 2, 3),
   (250, 1, 1, 1)]

/-- `SMOKE_THRESHOLD` (line 99). -/
def SMOKE_THRESHOLD : ℕ × ℕ × ℕ := (2, 3, 4)

/-- `DIRECT_FLAME_THRESHOLDS` (line 120). -/
def DIRECT_FLAME_THRESHOLDS : ℕ × ℕ × ℕ := (1, 1, 1)

/-- `get_heat_thresholds` (lines 122-126): scans `HEAT_THRESHOLDS` in list
order and returns the triple of the FIRST row whose temperature is ≤ `temp`;
`none` models the `(inf, inf, inf)` fallthrough for `temp` below 50. -/
def get_heat_thresholds (temp : ℚ) : Option (ℕ × ℕ × ℕ) :=
  (HEAT_THRESHOLDS.find? (fun r => r.1 ≤ temp)).map (fun r => r.2)

/-- The selection rule stated by the spec (§4.3): a descending scan over the
banded breakpoints, i.e. the triple of the LARGEST row temperature that does
not exceed `temp`; `none` models the all-infinite triple below the lowest
breakpoint.  (`HEAT_THRESHOLDS` is listed in ascending temperature order, so
scanning its reverse finds the highest breakpoint ≤ `temp`.) -/
def spec_heat_thresholds (temp : ℚ) : Option (ℕ × ℕ × ℕ) :=
  (HEAT_THRESHOLDS.reverse.find? (fun r => r.1 ≤ temp)).map (fun r => r.2)

/-! ## Grid geometry

The Python grid is a `grid_height × grid_width` list of lists indexed as
`grid[y][x]`; every access in the simulation loop is guarded by a bounds
check, so we embed the grid as a total function on integer coordinates
`(x, y)` together with the width and height. -/

/-- A coordinate `(x, y)`; Python arithmetic on coordinates can go negative
before the bounds check, so we use integers. -/
abbrev Pos := ℤ × ℤ

/-- The orthogonal neighbor offsets `[(1,0),(-1,0),(0,1),(0,-1)]` used by
`compute_distance_map`, `diffuse_temperature` and the movement loop. -/
def nbrOffsets : List Pos := [(1, 0), (-1, 0), (0, 1), (0, -1)]

/-- `(x + dx, y + dy)`. -/
def stepP (p o : Pos) : Pos := (p.1 + o.1, p.2 + o.2)

/-- `in_bounds` (line 205): `0 <= x < grid_w and 0 <= y < grid_h`. -/
def in_bounds (W H : ℤ) (p : Pos) : Prop :=
  0 ≤ p.1 ∧ p.1 < W ∧ 0 ≤ p.2 ∧ p.2 < H

instance (W H : ℤ) (p : Pos) : Decidable (in_bounds W H p) :=
  inferInstanceAs (Decidable (0 ≤ p.1 ∧ p.1 < W ∧ 0 ≤ p.2 ∧ p.2 < H))

/-! ## Agent Health Model (Stage 0 of the tick loop, lines 556-626)

Per agent the loop updates the exposure counters, then applies the
direct-flame, smoke and heat checks in order.  The local variable `health`
is read once from `agent_health[key]` before the checks and is NOT refreshed
between them, while each check writes `agent_health[key]` directly; the
returned list records the successive values written to `agent_health[key]`
so that theorems can speak about intra-tick overwrites. -/

/-- The per-agent mutable record: `agent_health[key]`, `exposure[key]["fire"]`,
`exposure[key]["smoke"]` and `heat_exposure_ticks[key]`. -/
structure AgentHState where
  health : ℕ
  fireExp : ℕ
  smokeExp : ℕ
  heatTicks : ℕ
deriving DecidableEq, Repr

/-- Outcome of one threshold check: `stop` is the incapacitation branch
(which writes `INCAPACITATED` and `continue`s), `writes l` the values the
check writes otherwise (`l` is `[]`, `[INJURED]` or `[FATALLY_INJURED]`). -/
inductive CheckOut where
  | stop
  | writes (l : List ℕ)
deriving DecidableEq, Repr

/-- One threshold check against a `(nf, f, inc)` triple, exactly the
`if exposure >= inc and health != INCAPACITATED ... elif exposure >= f and
health in (HEALTHY, INJURED) ... elif exposure >= nf and health == HEALTHY`
blocks; `stale` is the `health` local read before any check ran. -/
def runCheck (cnt nf f inc stale : ℕ) : CheckOut :=
  if inc ≤ cnt ∧ stale ≠ INCAPACITATED then .stop
  else if f ≤ cnt ∧ (stale = HEALTHY ∨ stale = INJURED) then .writes [FATALLY_INJURED]
  else if nf ≤ cnt ∧ stale = HEALTHY then .writes [INJURED]
  else .writes []

/-- Stage 0 for one agent (lines 556-626): counter updates followed by the
three ordered checks.  `cell` is the grid value at the agent's position and
`temp` the temperature there.  Returns the new record together with the list
of values successively written to `agent_health[key]` this tick (the final
stored severity is the last write, or the old value if no check wrote). -/
def healthStep (cell : ℕ) (temp : ℚ) (s : AgentHState) : AgentHState × List ℕ :=
  let fireE := if cell = FIRE then s.fireExp + 1 else 0
  let smokeE := if cell = FIRE then 0 else if cell = SMOKE then s.smokeExp + 1 else 0
  let heatT := if SAFE_TEMP_THRESHOLD ≤ temp then s.heatTicks + 1 else 0
  let health := s.health
  if health = INCAPACITATED then (⟨health, fireE, smokeE, heatT⟩, [])
  else
    let flameOut := if cell = FIRE then
        runCheck fireE DIRECT_FLAME_THRESHOLDS.1 DIRECT_FLAME_THRESHOLDS.2.1
          DIRECT_FLAME_THRESHOLDS.2.2 health
      else .writes []
    match flameOut with
    | .stop => (⟨INCAPACITATED, fireE, smokeE, heatT⟩, [INCAPACITATED])
    | .writes w1 =>
      match runCheck smokeE SMOKE_THRESHOLD.1 SMOKE_THRESHOLD.2.1 SMOKE_THRESHOLD.2.2 health with
      | .stop => (⟨INCAPACITATED, fireE, smokeE, heatT⟩, w1 ++ [INCAPACITATED])
      | .writes w2 =>
        let heatOut := match get_heat_thresholds temp with
          | none => CheckOut.writes []
          | some (nf, f, inc) => runCheck heatT nf f inc health
        match heatOut with
        | .stop => (⟨INCAPACITATED, fireE, smokeE, heatT⟩, w1 ++ w2 ++ [INCAPACITATED])
        | .writes w3 =>
          let ws := w1 ++ w2 ++ w3
          (⟨ws.getLast?.getD health, fireE, smokeE, heatT⟩, ws)

/-- The record of a freshly placed agent: `agent_health = HEALTHY`, all
exposure counters 0 (lines 526-528, 364-366). -/
def initAgentHState : AgentHState := ⟨HEALTHY, 0, 0, 0⟩

/-- Reachability invariant of the per-agent record: severity is one of the
four states, and a still-healthy agent has accumulated at most one smoke
tick (the smoke check turns the agent `INJURED` the moment the counter
reaches `nf_smoke = 2`). -/
def HInv (s : AgentHState) : Prop :=
  s.health ≤ INCAPACITATED ∧ (s.health = HEALTHY → s.smokeExp ≤ 1)

instance (s : AgentHState) : Decidable (HInv s) :=
  inferInstanceAs (Decidable (_ ∧ _))

/-! ## Distance Field Builder (`compute_distance_map`, lines 208-226)

Multi-source BFS: every exit is seeded with distance 0 and pushed; popping
`(x, y)` relaxes the four orthogonal neighbors that are in bounds, not walls
and still at infinity.  `none` plays the role of `float("inf")`. -/

/-- Number of in-bounds cells still at infinity; BFS assigns each at most
once, so this (plus the queue length) is the termination measure. -/
def countNone (W H : ℤ) (d : Pos → Option ℕ) : ℕ :=
  (((Finset.Ico 0 W) ×ˢ (Finset.Ico 0 H)).filter (fun p => d p = none)).card

/-- Relaxation of a single neighbor offset `o` of the popped cell `p` whose
distance is `k`: lines 220-225 of the source. -/
def relaxOne (W H : ℤ) (g : Pos → ℕ) (k : ℕ) (p : Pos)
    (st : List Pos × (Pos → Option ℕ)) (o : Pos) : List Pos × (Pos → Option ℕ) :=
  if in_bounds W H (stepP p o) ∧ g (stepP p o) ≠ WALL ∧ st.2 (stepP p o) = none then
    (st.1 ++ [stepP p o], fun c => if c = stepP p o then some (k + 1) else st.2 c)
  else st

/-- The `for dx, dy in [(1,0),(-1,0),(0,1),(0,-1)]` loop body of one pop. -/
def relaxAll (W H : ℤ) (g : Pos → ℕ) (k : ℕ) (p : Pos)
    (st : List Pos × (Pos → Option ℕ)) : List Pos × (Pos → Option ℕ) :=
  nbrOffsets.foldl (relaxOne W H g k p) st

/-- The `while q:` loop.  A popped cell always carries a finite distance
(seeds are 0 and every pushed cell is assigned `k+1` before the push); on
the impossible state where a queued cell is still at infinity the Python
code would add `1` to `float("inf")` and livelock re-enqueueing infinity
cells, so that dead branch is embedded as a skip to stay terminating. -/
def bfsLoop (W H : ℤ) (g : Pos → ℕ) (q : List Pos) (d : Pos → Option ℕ) :
    Pos → Option ℕ :=
  match q with
  | [] => d
  | p :: rest =>
    match d p with
    | none => bfsLoop W H g rest d
    | some k =>
      let st := relaxAll W H g k p (rest, d)
      bfsLoop W H g st.1 st.2
termination_by countNone W H d + q.length
decreasing_by
  · simp only [List.length_cons]; omega
  · have hone : ∀ (st : List Pos × (Pos → Option ℕ)) (o : Pos),
        countNone W H (relaxOne W H g k p st o).2 + (relaxOne W H g k p st o).1.length ≤
          countNone W H st.2 + st.1.length := by
      intro st o
      by_cases hc : in_bounds W H (stepP p o) ∧ g (stepP p o) ≠ WALL ∧ st.2 (stepP p o) = none
      · simp only [relaxOne, if_pos hc, List.length_append, List.length_singleton]
        have hlt : countNone W H
            (fun c => if c = stepP p o then some (k + 1) else st.2 c) < countNone W H st.2 := by
          apply Finset.card_lt_card
          constructor
          · intro c hcmem
            simp only [Finset.mem_filter] at hcmem ⊢
            refine ⟨hcmem.1, ?_⟩
            have := hcmem.2
            by_cases hceq : c = stepP p o
            · rw [hceq] at this; simp at this
            · simpa [hceq] using this
          · intro hsub
            have hmem : stepP p o ∈ ((Finset.Ico 0 W) ×ˢ (Finset.Ico 0 H)).filter
                (fun c => st.2 c = none) := by
              simp only [Finset.mem_filter, Finset.mem_product, Finset.mem_Ico]
              exact ⟨⟨⟨hc.1.1, hc.1.2.1⟩, ⟨hc.1.2.2.1, hc.1.2.2.2⟩⟩, hc.2.2⟩
            have := hsub hmem
            simp [Finset.mem_filter] at this
        omega
      · simp only [relaxOne, if_neg hc]; omega
    have hall : countNone W H (relaxAll W H g k p (rest, d)).2 +
        (relaxAll W H g k p (rest, d)).1.length ≤ countNone W H d + rest.length := by
      simp only [relaxAll, nbrOffsets, List.foldl_cons, List.foldl_nil]
      calc countNone W H (relaxOne W H g k p (relaxOne W H g k p (relaxOne W H g k p
              (relaxOne W H g k p (rest, d) (1, 0)) (-1, 0)) (0, 1)) (0, -1)).2 +
            (relaxOne W H g k p (relaxOne W H g k p (relaxOne W H g k p
              (relaxOne W H g k p (rest, d) (1, 0)) (-1, 0)) (0, 1)) (0, -1)).1.length ≤
          countNone W H (relaxOne W H g k p (relaxOne W H g k p
              (relaxOne W H g k p (rest, d) (1, 0)) (-1, 0)) (0, 1)).2 +
            (relaxOne W H g k p (relaxOne W H g k p
              (relaxOne W H g k p (rest, d) (1, 0)) (-1, 0)) (0, 1)).1.length := hone _ _
        _ ≤ countNone W H (relaxOne W H g k p
              (relaxOne W H g k p (rest, d) (1, 0)) (-1, 0)).2 +
            (relaxOne W H g k p (relaxOne W H g k p (rest, d) (1, 0)) (-1, 0)).1.length :=
            hone _ _
        _ ≤ countNone W H (relaxOne W H g k p (rest, d) (1, 0)).2 +
            (relaxOne W H g k p (rest, d) (1, 0)).1.length := hone _ _
        _ ≤ countNone W H d + rest.length := hone _ _
    simp only [List.length_cons]
    omega

/-- `compute_distance_map` (lines 208-226): seed every exit with 0, enqueue
all exits, then run the BFS loop. -/
def compute_distance_map (exits : List Pos) (g : Pos → ℕ) (W H : ℤ) :
    Pos → Option ℕ :=
  bfsLoop W H g exits (fun c => if c ∈ exits then some 0 else none)

/-- The spec's notion of distance (§3, §4.2, §8): `Reach p n` holds when `p`
can be reached from some exit cell in exactly `n` orthogonal steps, every
step landing on an in-bounds non-wall cell (hazard cells are traversable,
only walls block).  The true shortest-path step count of `p` is the least
such `n`. -/
inductive Reach (W H : ℤ) (g : Pos → ℕ) (exits : List Pos) : Pos → ℕ → Prop where
  | base : ∀ p, p ∈ exits → Reach W H g exits p 0
  | step : ∀ p n o, Reach W H g exits p n → o ∈ nbrOffsets →
      in_bounds W H (stepP p o) → g (stepP p o) ≠ WALL →
      Reach W H g exits (stepP p o) (n + 1)

/-- The numeric value of an assigned distance (`0` as a dummy for `none`;
only used on assigned cells). -/
def dval (d : Pos → Option ℕ) (p : Pos) : ℕ := (d p).getD 0

/-- The BFS loop invariant relating the queue and the partial distance map:
every queued cell is assigned; assigned values are sound (they are realized
by a path); queued values are non-decreasing along the queue; every assigned
value is at most one more than any queued value; and every assigned,
already-dequeued cell has all its admissible neighbors assigned within one
step of its own value. -/
structure BfsInv (W H : ℤ) (g : Pos → ℕ) (exits : List Pos)
    (q : List Pos) (d : Pos → Option ℕ) : Prop where
  qAss : ∀ p ∈ q, d p ≠ none
  sound : ∀ p n, d p = some n → Reach W H g exits p n
  qSorted : List.Pairwise (fun a b => dval d a ≤ dval d b) q
  bounded : ∀ p n, d p = some n → ∀ v ∈ q, n ≤ dval d v + 1
  closed : ∀ p n, d p = some n → p ∉ q → ∀ o ∈ nbrOffsets,
    in_bounds W H (stepP p o) → g (stepP p o) ≠ WALL →
    ∃ m ≤ n + 1, d (stepP p o) = some m

/-! ## Hazard Propagation Engine: thermal diffusion
(`diffuse_temperature`, lines 228-259)

The temperature field is embedded as a total function `Pos → ℚ`; the loop
writes every in-bounds cell of a copy of the field, so the update is
pointwise in the OLD field and cells outside the grid keep their value. -/

/-- The insulation-reduced coupling factor of a neighbor (lines 244-247). -/
def diffusion_factor (g : Pos → ℕ) (n : Pos) : ℚ :=
  if g n = WALL then THERMAL_DIFFUSIVITY * WALL_INSULATION else THERMAL_DIFFUSIVITY

/-- The in-bounds orthogonal neighbors of `p`, in loop order. -/
def inNbrs (W H : ℤ) (p : Pos) : List Pos :=
  (nbrOffsets.map (stepP p)).filter (fun n => decide (in_bounds W H n))

/-- `neighbors_sum` accumulated by the loop (line 249). -/
def neighbors_sum (W H : ℤ) (g : Pos → ℕ) (t : Pos → ℚ) (p : Pos) : ℚ :=
  ((inNbrs W H p).map (fun n => t n * diffusion_factor g n)).sum

/-- `neighbor_count` accumulated by the loop (line 250). -/
def neighbor_count (W H : ℤ) (g : Pos → ℕ) (p : Pos) : ℚ :=
  ((inNbrs W H p).map (fun n => diffusion_factor g n)).sum

/-- `diffuse_temperature` (lines 228-259): fire cells are clamped to
`FIRE_TEMP`; any other cell with positive neighbor coupling moves to the
weighted neighbor average and is then relaxed by `cooling_rate = 0.02`
toward ambient; cells with no in-bounds neighbor keep their old value. -/
def diffuse_temperature (t : Pos → ℚ) (g : Pos → ℕ) (W H : ℤ) : Pos → ℚ :=
  fun p =>
    if ¬ in_bounds W H p then t p
    else if g p = FIRE then FIRE_TEMP
    else if 0 < neighbor_count W H g p then
      let avg := neighbors_sum W H g t p / neighbor_count W H g p
      let t1 := t p + (avg - t p)
      t1 + (AMBIENT_TEMP - t1) * (2 / 100)
    else t p

/-- Neighbor weight as the spec words it: wall neighbors weighted by
`WALL_INSULATION`, others by 1. -/
def spec_neighbor_weight (g : Pos → ℕ) (n : Pos) : ℚ :=
  if g n = WALL then WALL_INSULATION else 1

/-- The insulation-weighted average of the in-bounds 4-connected neighbors'
old temperatures, as described by the spec. -/
def spec_weighted_avg (W H : ℤ) (g : Pos → ℕ) (t : Pos → ℚ) (p : Pos) : ℚ :=
  ((inNbrs W H p).map (fun n => t n * spec_neighbor_weight g n)).sum /
    ((inNbrs W H p).map (fun n => spec_neighbor_weight g n)).sum

/-- Ticks of diffusion from the ambient initial field
(`temp_grid = np.full(..., AMBIENT_TEMP)`, line 332); the grid may change
between ticks (fire/smoke spread), hence a grid per tick. -/
def iterDiffuse (W H : ℤ) (gs : ℕ → Pos → ℕ) : ℕ → Pos → ℚ
  | 0 => fun _ => AMBIENT_TEMP
  | n + 1 => diffuse_temperature (iterDiffuse W H gs n) (gs n) W H

/-! ## Movement Resolver (Stages 1-4 of the tick loop, lines 628-758)

The three random draws of the resolver are explicit oracle inputs:
`rand idx` is the uniform draw of `random.random()` for agent `idx`,
`choice idx` selects among the non-best candidates (`random.choice`),
and `shuffle` models `random.shuffle`. -/

/-- `float` comparison `a <= b` where `none` is `float("inf")`. -/
def optLeB : Option ℕ → Option ℕ → Bool
  | some a, some b => a ≤ b
  | some _, none => true
  | none, some _ => false
  | none, none => true

/-- `float` comparison `a < b` where `none` is `float("inf")`. -/
def optLtB : Option ℕ → Option ℕ → Bool
  | some a, some b => a < b
  | some _, none => true
  | none, _ => false

/-- Candidate ordering by distance-field value, the key of
`cands.sort(key=lambda p: dist_map[p[1]][p[0]])`. -/
def distLe (dm : Pos → Option ℕ) (a b : Pos) : Prop :=
  optLeB (dm a) (dm b) = true

instance (dm : Pos → Option ℕ) : DecidableRel (distLe dm) :=
  fun a b => inferInstanceAs (Decidable (optLeB (dm a) (dm b) = true))

/-- An agent's declared intent: stay, move to a normal cell, or go through
an exit cell (either standing on it or moving onto it). -/
inductive Intent where
  | stay
  | normal (t : Pos)
  | exitI (t : Pos)
deriving DecidableEq, Repr

/-- Everything the movement resolver reads during one tick: grid and
distance field, the (sorted) agent list whose set is the occupancy snapshot,
the indices incapacitated by Stage 0 this tick, the per-agent panic level
(`agent_data.get(pos, {}).get("panic", 0)`), and the random oracles. -/
structure ResolveIn where
  W : ℤ
  H : ℤ
  g : Pos → ℕ
  dm : Pos → Option ℕ
  agents : List Pos
  exits : List Pos
  incap : List ℕ
  panicOf : Pos → ℕ
  rand : ℕ → ℚ
  choice : ℕ → ℕ
  shuffle : List ℕ → List ℕ

/-- The candidate list of agent at `p` (lines 643-648): orthogonal,
in-bounds, non-wall, and absent from the start-of-tick occupancy snapshot
`occupied = set(agents)`; built in neighbor-offset order. -/
def candsOf (R : ResolveIn) (p : Pos) : List Pos :=
  nbrOffsets.filterMap (fun o =>
    if in_bounds R.W R.H (stepP p o) ∧ R.g (stepP p o) ≠ WALL ∧
        ¬ stepP p o ∈ R.agents
    then some (stepP p o) else none)

/-- `cands.sort(key=...)` (line 654).  Python's sort is stable, as is
`List.insertionSort`, so ties keep candidate-construction order. -/
def sortCands (R : ResolveIn) (p : Pos) : List Pos :=
  (candsOf R p).insertionSort (distLe R.dm)

/-- Route a chosen destination cell by its type (lines 670-673). -/
def routeMove (R : ResolveIn) (t : Pos) : Intent :=
  if R.g t = EXIT then .exitI t else .normal t

/-- Stage 1 for the agent with index `idx` at position `p` (lines 629-673).
`mkRat panic 10` is the exact rational value of `panic_lvl / 10.0` (see
`panic_prob_eq_div` below).  Also returns whether the panic branch
(lines 661-662) fired, so that theorems can speak about panic-induced
lateral moves. -/
def declare (R : ResolveIn) (idx : ℕ) (p : Pos) : Intent × Bool :=
  if idx ∈ R.incap then (.stay, false)
  else if R.g p = EXIT then (.exitI p, false)
  else if R.dm p = none then (.stay, false)
  else
    let cands := candsOf R p
    if cands = [] then (.stay, false)
    else
      let sc := sortCands R p
      let best := sc.head!
      if 1 < cands.length ∧ R.rand idx < mkRat (R.panicOf p) 10 then
        ((routeMove R ((sc.drop 1).getD (R.choice idx % (sc.drop 1).length) (0, 0))), true)
      else if optLtB (R.dm best) (R.dm p) then (routeMove R best, false)
      else (.stay, false)

/-- Number of agents this tick. -/
def nIdx (R : ResolveIn) : ℕ := R.agents.length

/-- The declared intent of agent `idx`. -/
def intentOf (R : ResolveIn) (idx : ℕ) : Intent :=
  (declare R idx (R.agents.getD idx (0, 0))).1

/-- `normal_targets[t]`: the indices that declared a normal move to `t`,
in agent-index order (lines 672-673). -/
def claimantsN (R : ResolveIn) (t : Pos) : List ℕ :=
  (List.range (nIdx R)).filter (fun i => intentOf R i = Intent.normal t)

/-- Stage 2 (lines 676-683): a cell with one claimant grants it, otherwise
the first of the shuffled claimants wins. -/
def winnerAt (R : ResolveIn) (t : Pos) : Option ℕ :=
  match claimantsN R t with
  | [] => none
  | [i] => some i
  | l => (R.shuffle l).head?

/-- `winners_move` as a function: agent `idx` moves to `t` iff it declared
a normal move to `t` and won the conflict resolution at `t`. -/
def winnerMove (R : ResolveIn) (idx : ℕ) : Option Pos :=
  match intentOf R idx with
  | .normal t => if winnerAt R t = some idx then some t else none
  | _ => none

/-- `exit_targets[e]`: the indices that declared exit-intent at `e`. -/
def claimantsE (R : ResolveIn) (e : Pos) : List ℕ :=
  (List.range (nIdx R)).filter (fun i => intentOf R i = Intent.exitI e)

/-- `exit_cap_remaining.get(exit_pos, EXIT_CAPACITY_PER_TICK)` (line 689):
the dict is initialized to `EXIT_CAPACITY_PER_TICK` for every exit and never
decremented, and the lookup default is the same constant. -/
def exitCapRemaining (R : ResolveIn) (e : Pos) : ℕ :=
  if e ∈ R.exits then EXIT_CAPACITY_PER_TICK else EXIT_CAPACITY_PER_TICK

/-- Stage 3 (lines 686-700): `winners_to_exit = idxs[:cap]` after the
shuffle — the agents admitted through exit cell `e` this tick. -/
def admittedAt (R : ResolveIn) (e : Pos) : List ℕ :=
  (R.shuffle (claimantsE R e)).take (exitCapRemaining R e)

/-- The distinct exit cells with claimants (the keys of `exit_targets`). -/
def exitKeys (R : ResolveIn) : List Pos :=
  ((List.range (nIdx R)).filterMap (fun i =>
    match intentOf R i with
    | .exitI e => some e
    | _ => none)).dedup

/-- `removed_idx`: all indices admitted through some exit this tick. -/
def removedIdx (R : ResolveIn) : List ℕ :=
  (exitKeys R).flatMap (admittedAt R)

/-- Stage 4 commit (lines 702-754): drop exited and incapacitated agents,
move each winner to its target, keep everyone else in place. -/
def commitAgents (R : ResolveIn) : List Pos :=
  (List.range (nIdx R)).filterMap (fun i =>
    if i ∈ removedIdx R then none
    else if i ∈ R.incap then none
    else some ((winnerMove R i).getD (R.agents.getD i (0, 0))))

/-! ## Configuration input and layout persistence
(`main` lines 296-302, `load_layout` lines 176-200) -/

/-- The `int(input(...))` pair guarded by `try/except ValueError`
(lines 296-302): `none` models an unparseable entry, which falls back to
the 30×20 default; parsed integers are used as given. -/
def readGridSize (wIn hIn : Option ℤ) : ℤ × ℤ :=
  match wIn, hIn with
  | some w, some h => (w, h)
  | _, _ => (30, 20)

/-- Python list indexing: `0 ≤ i < len` is direct, `-len ≤ i < 0` wraps to
`i + len`, anything else raises `IndexError` (`none`). -/
def pyIndex (len : ℕ) (i : ℤ) : Option ℕ :=
  if 0 ≤ i ∧ i < (len : ℤ) then some i.toNat
  else if -(len : ℤ) ≤ i ∧ i < 0 then some (i + len).toNat
  else none

/-- `grid[y][x] = v` with Python index semantics; the grid is embedded as a
function on the normalized (non-negative) coordinates. -/
def gridSet (W H : ℕ) (g : ℕ × ℕ → ℕ) (c : Pos) (v : ℕ) :
    Option (ℕ × ℕ → ℕ) :=
  match pyIndex W c.1, pyIndex H c.2 with
  | some x, some y => some (fun q => if q = (x, y) then v else g q)
  | _, _ => none

/-- Write cell type `v` at every coordinate of `cs`, in list order. -/
def setAll (W H : ℕ) (g : ℕ × ℕ → ℕ) (cs : List Pos) (v : ℕ) :
    Option (ℕ × ℕ → ℕ) :=
  cs.foldlM (fun g c => gridSet W H g c v) g

/-- The grid built by `load_layout` (lines 184-193): start from all-`EMPTY`,
then write walls, then fires, then exits, in that order. -/
def load_layout_grid (W H : ℕ) (walls fires exits_ : List Pos) :
    Option (ℕ × ℕ → ℕ) := do
  let g1 ← setAll W H (fun _ => EMPTY) walls WALL
  let g2 ← setAll W H g1 fires FIRE
  setAll W H g2 exits_ EXIT

/-! ## Concrete inputs used by witnesses and counterexamples -/

/-- A 3×3 grid, empty but for an exit at the origin. -/
def gEx3 : Pos → ℕ := fun p => if p = (0, 0) then EXIT else EMPTY

/-- The exit-distance field of `gEx3` on the 3×3 grid (Manhattan distance
to the origin). -/
def dmEx3 : Pos → Option ℕ :=
  fun p => if in_bounds 3 3 p then some (p.1 + p.2).toNat else none

/-- A resolver input on `gEx3`: three agents, the two agents adjacent to
the exit hem in the agent at `(1,1)`, whose free candidates `(2,1)` and
`(1,2)` are both strictly farther from the exit than its own cell; the
agent at `(1,1)` has maximum panic and its uniform draw is 0. -/
def Rhem : ResolveIn where
  W := 3
  H := 3
  g := gEx3
  dm := dmEx3
  agents := [(0, 1), (1, 0), (1, 1)]
  exits := [(0, 0)]
  incap := []
  panicOf := fun _ => 10
  rand := fun _ => 0
  choice := fun _ => 0
  shuffle := id

/-- An everywhere-empty grid. -/
def gEmpty : Pos → ℕ := fun _ => EMPTY

/-- A 3×3 grid with a single wall cell at `(1,1)`. -/
def gWall11 : Pos → ℕ := fun p => if p = (1, 1) then WALL else EMPTY

end Evac

namespace Evac

/-! # Theorems -/

/-! ## C1: band selection in `get_heat_thresholds` -/

/-- Claim C1 (code bug): the claim — and the table's own per-band comments —
say the heat check uses the triple of the HIGHEST breakpoint ≤ the current
temperature, but `get_heat_thresholds` scans the ascending table and returns
the FIRST row with `temp >= threshold_temp`, i.e. always the 50 °C triple
`(240, 480, 720)` once `temp ≥ 50`; at 250 °C the spec's descending scan
would select `(1, 1, 1)`.  Rows 60 °C–250 °C are unreachable in the code. -/
theorem get_heat_thresholds_first_band_bug :
    get_heat_thresholds 250 = some (240, 480, 720) ∧
      spec_heat_thresholds 250 = some (1, 1, 1) ∧
      get_heat_thresholds 100 = some (240, 480, 720) ∧
      spec_heat_thresholds 100 = some (16, 32, 48) ∧
      get_heat_thresholds 40 = none ∧
      spec_heat_thresholds 40 = none := by
  refine ⟨by decide, by decide, by decide, by decide, by decide, by decide⟩

/-! ## C5: per-exit admissions bounded by capacity -/

/-- Claim C5: for every exit cell and every tick, the number of agents
admitted (removed and tallied as exited) through that exit during Stage 3 is
at most `EXIT_CAPACITY_PER_TICK` — the winners are `idxs[:cap]` with
`cap = exit_cap_remaining.get(exit_pos, EXIT_CAPACITY_PER_TICK)`. -/
theorem admitted_per_exit_le_capacity (R : ResolveIn) (e : Pos) :
    (admittedAt R e).length ≤ EXIT_CAPACITY_PER_TICK := by
  unfold admittedAt exitCapRemaining
  split_ifs <;>
    simpa using min_le_left EXIT_CAPACITY_PER_TICK (R.shuffle (claimantsE R e)).length

/-! ## C2: the three ordered checks never lower stored severity -/

theorem runCheck_writes_cases {cnt nf f inc stale : ℕ} {l : List ℕ}
    (h : runCheck cnt nf f inc stale = .writes l) :
    l = [] ∨ (l = [FATALLY_INJURED] ∧ f ≤ cnt ∧ (stale = HEALTHY ∨ stale = INJURED)) ∨
      (l = [INJURED] ∧ nf ≤ cnt ∧ stale = HEALTHY) := by
  unfold runCheck at h
  split_ifs at h <;> simp_all

/-- With the `(1, 1, 1)` direct-flame triple the non-incapacitating branches
of the flame check are unreachable: `fire >= f_flame` together with the
negation of the incapacitation guard is contradictory. -/
theorem flame_check_writes_nil {cnt stale : ℕ} {l : List ℕ}
    (h : runCheck cnt 1 1 1 stale = .writes l) : l = [] := by
  unfold runCheck at h
  split_ifs at h with h1 h2 h3 <;>
    simp_all [HEALTHY, INJURED, INCAPACITATED] <;> omega

/-- A still-`HEALTHY` outcome of a check means the counter was below the
non-fatal threshold. -/
theorem runCheck_writes_nil_healthy {cnt nf f inc : ℕ}
    (h : runCheck cnt nf f inc HEALTHY = .writes []) : cnt < nf := by
  unfold runCheck at h
  split_ifs at h with h1 h2 h3 <;>
    simp_all [HEALTHY, INJURED, INCAPACITATED] <;> omega

/-- Claim C2: the freshly placed record satisfies the reachability invariant
`HInv`, and on any `HInv` state the sequence of severities stored in
`agent_health[key]` during one tick (old value followed by the successive
check writes) is non-decreasing — a later check never overwrites a higher
severity written by an earlier check with a lower one — and `HInv` is
preserved, so the hypothesis holds on every reachable tick. -/
theorem health_checks_never_downgrade :
    HInv initAgentHState ∧
    ∀ (cell : ℕ) (temp : ℚ) (s : AgentHState), HInv s →
      List.Chain' (· ≤ ·) (s.health :: (healthStep cell temp s).2) ∧
      HInv (healthStep cell temp s).1 := by
  refine ⟨by decide, ?_⟩
  intro cell temp s hInv
  obtain ⟨hle3, hsmoke⟩ := hInv
  replace hle3 : s.health ≤ 3 := hle3
  replace hsmoke : s.health = 0 → s.smokeExp ≤ 1 := hsmoke
  set fireE := if cell = FIRE then s.fireExp + 1 else 0 with hfE
  set smokeE := if cell = FIRE then 0 else if cell = SMOKE then s.smokeExp + 1 else 0 with hsE
  set heatT := if SAFE_TEMP_THRESHOLD ≤ temp then s.heatTicks + 1 else 0 with hhT
  have hsmokeE : s.health = 0 → smokeE ≤ 2 := by
    intro h0
    have := hsmoke h0
    rw [hsE]
    split_ifs <;> omega
  by_cases hinc : s.health = INCAPACITATED
  · rw [show healthStep cell temp s = (⟨s.health, fireE, smokeE, heatT⟩, []) from by
      rw [healthStep]; simp only [← hfE, ← hsE, ← hhT, if_pos hinc]]
    refine ⟨by simp, by simp [HInv, hinc, INCAPACITATED, HEALTHY]⟩
  · have hstep : healthStep cell temp s =
        (let flameOut := if cell = FIRE then
            runCheck fireE DIRECT_FLAME_THRESHOLDS.1 DIRECT_FLAME_THRESHOLDS.2.1
              DIRECT_FLAME_THRESHOLDS.2.2 s.health
          else .writes []
        match flameOut with
        | .stop => (⟨INCAPACITATED, fireE, smokeE, heatT⟩, [INCAPACITATED])
        | .writes w1 =>
          match runCheck smokeE SMOKE_THRESHOLD.1 SMOKE_THRESHOLD.2.1 SMOKE_THRESHOLD.2.2
              s.health with
          | .stop => (⟨INCAPACITATED, fireE, smokeE, heatT⟩, w1 ++ [INCAPACITATED])
          | .writes w2 =>
            let heatOut := match get_heat_thresholds temp with
              | none => CheckOut.writes []
              | some (nf, f, inc) => runCheck heatT nf f inc s.health
            match heatOut with
            | .stop => (⟨INCAPACITATED, fireE, smokeE, heatT⟩, w1 ++ w2 ++ [INCAPACITATED])
            | .writes w3 =>
              let ws := w1 ++ w2 ++ w3
              (⟨ws.getLast?.getD s.health, fireE, smokeE, heatT⟩, ws)) := by
      rw [healthStep]
      simp only [← hfE, ← hsE, ← hhT, if_neg hinc]
    rw [hstep]
    clear hstep
    rcases hF : (if cell = FIRE then
        runCheck fireE DIRECT_FLAME_THRESHOLDS.1 DIRECT_FLAME_THRESHOLDS.2.1
          DIRECT_FLAME_THRESHOLDS.2.2 s.health
      else CheckOut.writes []) with _ | w1
    · simp only
      constructor
      · simp [INCAPACITATED]; omega
      · simp [HInv, INCAPACITATED, HEALTHY]
    · have hw1 : w1 = [] := by
        by_cases hcf : cell = FIRE
        · rw [if_pos hcf] at hF
          exact flame_check_writes_nil (by simpa [DIRECT_FLAME_THRESHOLDS] using hF)
        · rw [if_neg hcf] at hF
          simpa using hF.symm
      subst hw1
      simp only
      rcases hS : runCheck smokeE SMOKE_THRESHOLD.1 SMOKE_THRESHOLD.2.1 SMOKE_THRESHOLD.2.2
          s.health with _ | w2
      · simp only
        constructor
        · simp [INCAPACITATED]; omega
        · simp [HInv, INCAPACITATED, HEALTHY]
      · simp only
        have hw2 := runCheck_writes_cases hS
        have hsmoke0 : s.health = 0 → w2 = [] → smokeE ≤ 1 := by
          intro h0 hnil
          have := runCheck_writes_nil_healthy
            (show runCheck smokeE SMOKE_THRESHOLD.1 SMOKE_THRESHOLD.2.1 SMOKE_THRESHOLD.2.2
                HEALTHY = .writes [] from by rw [show HEALTHY = s.health from h0.symm, hS, hnil])
          simp [SMOKE_THRESHOLD] at this
          omega
        rcases hH : (match get_heat_thresholds temp with
            | none => CheckOut.writes []
            | some (nf, f, inc) => runCheck heatT nf f inc s.health) with _ | w3
        · constructor
          · rcases hw2 with h2 | ⟨h2, -, hst⟩ | ⟨h2, -, hst⟩ <;> subst h2 <;>
              simp_all [INCAPACITATED, FATALLY_INJURED, INJURED, HEALTHY] <;> omega
          · simp [HInv, INCAPACITATED, HEALTHY, hH]
        · rw [hH]
          have hw3 : w3 = [] ∨
              (w3 = [FATALLY_INJURED] ∧ (s.health = HEALTHY ∨ s.health = INJURED)) ∨
              (w3 = [INJURED] ∧ s.health = HEALTHY) := by
            rcases hg : get_heat_thresholds temp with _ | ⟨nf, f, inc⟩
            · rw [hg] at hH; left; simpa using hH.symm
            · rw [hg] at hH
              rcases runCheck_writes_cases hH with h | ⟨h, -, hst⟩ | ⟨h, -, hst⟩
              · exact Or.inl h
              · exact Or.inr (Or.inl ⟨h, hst⟩)
              · exact Or.inr (Or.inr ⟨h, hst⟩)
          -- the one interaction needing the invariant: the smoke check wrote
          -- FATALLY_INJURED, the heat check would then write INJURED, which the
          -- invariant rules out (a healthy agent never has smoke exposure ≥ 3)
          have hnotboth : ¬ (w2 = [FATALLY_INJURED] ∧ w3 = [INJURED]) := by
            rintro ⟨h2, h3⟩
            rcases hw3 with h | ⟨h, -⟩ | ⟨-, hst⟩
            · rw [h] at h3; exact absurd h3 (by simp [INJURED])
            · rw [h] at h3
              exact absurd h3 (by simp [INJURED, FATALLY_INJURED])
            · rcases hw2 with h | ⟨-, hcnt, -⟩ | ⟨h, -, -⟩
              · rw [h] at h2; exact absurd h2 (by simp [FATALLY_INJURED])
              · have := hsmokeE hst
                simp [SMOKE_THRESHOLD] at hcnt
                omega
              · rw [h] at h2
                exact absurd h2 (by simp [INJURED, FATALLY_INJURED])
          constructor
          · rcases hw2 with h2 | ⟨h2, -, hst2⟩ | ⟨h2, -, hst2⟩ <;>
              rcases hw3 with h3 | ⟨h3, hst3⟩ | ⟨h3, hst3⟩ <;>
                subst h2 <;> subst h3 <;>
                  simp_all [INCAPACITATED, FATALLY_INJURED, INJURED, HEALTHY] <;> omega
          · rcases hw2 with h2 | ⟨h2, -, -⟩ | ⟨h2, -, -⟩ <;>
              rcases hw3 with h3 | ⟨h3, -⟩ | ⟨h3, -⟩ <;> subst h2 <;> subst h3
            · exact ⟨hle3, fun h0 => hsmoke0 h0 rfl⟩
            all_goals simp [HInv, INCAPACITATED, HEALTHY, FATALLY_INJURED, INJURED]

/-! ## C6 and C9: thermal diffusion -/

theorem diffusion_factor_pos (g : Pos → ℕ) (n : Pos) : 0 < diffusion_factor g n := by
  unfold diffusion_factor
  split_ifs <;> norm_num [THERMAL_DIFFUSIVITY, WALL_INSULATION]

theorem spec_neighbor_weight_pos (g : Pos → ℕ) (n : Pos) : 0 < spec_neighbor_weight g n := by
  unfold spec_neighbor_weight
  split_ifs <;> norm_num [WALL_INSULATION]

theorem diffusion_factor_eq_spec (g : Pos → ℕ) (n : Pos) :
    diffusion_factor g n = THERMAL_DIFFUSIVITY * spec_neighbor_weight g n := by
  unfold diffusion_factor spec_neighbor_weight
  split_ifs <;> ring

/-- Bounds on a positively-weighted sum of bounded temperatures. -/
theorem weighted_sum_bounds (l : List Pos) (t : Pos → ℚ) (w : Pos → ℚ)
    (hw : ∀ n ∈ l, 0 < w n)
    (hb : ∀ n ∈ l, AMBIENT_TEMP ≤ t n ∧ t n ≤ FIRE_TEMP) :
    AMBIENT_TEMP * (l.map w).sum ≤ (l.map (fun n => t n * w n)).sum ∧
      (l.map (fun n => t n * w n)).sum ≤ FIRE_TEMP * (l.map w).sum := by
  induction l with
  | nil => simp
  | cons a l ih =>
    have iha := ih (fun n hn => hw n (List.mem_cons_of_mem a hn))
      (fun n hn => hb n (List.mem_cons_of_mem a hn))
    have hwa := hw a (List.mem_cons_self a l)
    have hba := hb a (List.mem_cons_self a l)
    have h1 : AMBIENT_TEMP * w a ≤ t a * w a :=
      mul_le_mul_of_nonneg_right hba.1 (le_of_lt hwa)
    have h2 : t a * w a ≤ FIRE_TEMP * w a :=
      mul_le_mul_of_nonneg_right hba.2 (le_of_lt hwa)
    simp only [List.map_cons, List.sum_cons]
    constructor
    · have := iha.1; ring_nf; ring_nf at this h1 ⊢; linarith
    · have := iha.2; ring_nf; ring_nf at this h2 ⊢; linarith

/-- Claim C6: if every cell's temperature lies in
`[AMBIENT_TEMP, FIRE_TEMP]` before `diffuse_temperature`, it still does
afterwards; consequently, starting from the ambient initial field, the
temperature stays within `[ambient, fire-temperature]` for all ticks,
whatever the per-tick grids are. -/
theorem diffuse_temperature_range :
    (∀ (t : Pos → ℚ) (g : Pos → ℕ) (W H : ℤ),
      (∀ p, AMBIENT_TEMP ≤ t p ∧ t p ≤ FIRE_TEMP) →
      ∀ p, AMBIENT_TEMP ≤ diffuse_temperature t g W H p ∧
        diffuse_temperature t g W H p ≤ FIRE_TEMP) ∧
    (∀ (W H : ℤ) (gs : ℕ → Pos → ℕ) (n : ℕ) (p : Pos),
      AMBIENT_TEMP ≤ iterDiffuse W H gs n p ∧ iterDiffuse W H gs n p ≤ FIRE_TEMP) := by
  have hstep : ∀ (t : Pos → ℚ) (g : Pos → ℕ) (W H : ℤ),
      (∀ p, AMBIENT_TEMP ≤ t p ∧ t p ≤ FIRE_TEMP) →
      ∀ p, AMBIENT_TEMP ≤ diffuse_temperature t g W H p ∧
        diffuse_temperature t g W H p ≤ FIRE_TEMP := by
    intro t g W H ht p
    unfold diffuse_temperature
    by_cases h1 : in_bounds W H p
    · rw [if_neg (not_not_intro h1)]
      by_cases h2 : g p = FIRE
      · rw [if_pos h2]
        norm_num [AMBIENT_TEMP, FIRE_TEMP]
      · rw [if_neg h2]
        by_cases h3 : 0 < neighbor_count W H g p
        · rw [if_pos h3]
          have hb := weighted_sum_bounds (inNbrs W H p) t (diffusion_factor g)
            (fun n _ => diffusion_factor_pos g n) (fun n _ => ht n)
          have hA : AMBIENT_TEMP ≤ neighbors_sum W H g t p / neighbor_count W H g p := by
            rw [le_div_iff₀ h3]
            simpa [neighbors_sum, neighbor_count] using hb.1
          have hF : neighbors_sum W H g t p / neighbor_count W H g p ≤ FIRE_TEMP := by
            rw [div_le_iff₀ h3]
            simpa [neighbors_sum, neighbor_count] using hb.2
          constructor
          · norm_num [AMBIENT_TEMP] at hA ⊢
            linarith
          · norm_num [AMBIENT_TEMP, FIRE_TEMP] at hA hF ⊢
            linarith
        · rw [if_neg h3]
          exact ht p
    · rw [if_pos h1]
      exact ht p
  refine ⟨hstep, ?_⟩
  intro W H gs n
  induction n with
  | zero => intro p; norm_num [iterDiffuse, AMBIENT_TEMP, FIRE_TEMP]
  | succ n ih => exact hstep (iterDiffuse W H gs n) (gs n) W H ih

/-- Claim C9: for a non-fire cell with at least one in-bounds neighbor —
wall cells included, they are neither skipped nor clamped — the new
temperature is exactly the insulation-weighted average of the in-bounds
4-connected neighbors' old temperatures moved a `0.02` fraction toward
`AMBIENT_TEMP`; the cell's own old temperature cancels out of the update. -/
theorem diffuse_temperature_eq_weighted_avg
    (t : Pos → ℚ) (g : Pos → ℕ) (W H : ℤ) (p : Pos)
    (hin : in_bounds W H p) (hnf : g p ≠ FIRE)
    (hnb : ∃ o ∈ nbrOffsets, in_bounds W H (stepP p o)) :
    diffuse_temperature t g W H p =
      spec_weighted_avg W H g t p +
        (AMBIENT_TEMP - spec_weighted_avg W H g t p) * (2 / 100) := by
  have hne : inNbrs W H p ≠ [] := by
    obtain ⟨o, ho, hbo⟩ := hnb
    intro hnil
    have : stepP p o ∈ inNbrs W H p := by
      unfold inNbrs
      rw [List.mem_filter]
      exact ⟨List.mem_map_of_mem (stepP p) ho, by simpa using hbo⟩
    rw [hnil] at this
    exact absurd this (List.not_mem_nil _)
  have hcnt' : 0 < ((inNbrs W H p).map (fun n => spec_neighbor_weight g n)).sum := by
    apply List.sum_pos
    · intro x hx
      obtain ⟨n, _, rfl⟩ := List.mem_map.mp hx
      exact spec_neighbor_weight_pos g n
    · simpa using hne
  have hsum : neighbors_sum W H g t p =
      THERMAL_DIFFUSIVITY * ((inNbrs W H p).map (fun n => t n * spec_neighbor_weight g n)).sum := by
    unfold neighbors_sum
    rw [← List.sum_map_mul_left]
    exact congrArg List.sum (List.map_congr_left (fun n _ => by
      rw [diffusion_factor_eq_spec]; ring))
  have hcnt : neighbor_count W H g p =
      THERMAL_DIFFUSIVITY * ((inNbrs W H p).map (fun n => spec_neighbor_weight g n)).sum := by
    unfold neighbor_count
    rw [← List.sum_map_mul_left]
    exact congrArg List.sum (List.map_congr_left (fun n _ => diffusion_factor_eq_spec g n))
  have hTD : (0:ℚ) < THERMAL_DIFFUSIVITY := by norm_num [THERMAL_DIFFUSIVITY]
  have hpos : 0 < neighbor_count W H g p := by
    rw [hcnt]; exact mul_pos hTD hcnt'
  have havg : neighbors_sum W H g t p / neighbor_count W H g p = spec_weighted_avg W H g t p := by
    rw [hsum, hcnt, spec_weighted_avg]
    exact mul_div_mul_left _ _ (ne_of_gt hTD)
  unfold diffuse_temperature
  rw [if_neg (not_not_intro hin), if_neg hnf, if_pos hpos]
  simp only
  rw [havg]
  ring

/-! ## C8 and C10: configuration input and layout loading -/

theorem pyIndex_of_nonneg_lt {L : ℕ} {i : ℤ} (h0 : 0 ≤ i) (hL : i < (L : ℤ)) :
    pyIndex L i = some i.toNat := by
  unfold pyIndex
  rw [if_pos ⟨h0, hL⟩]

/-- Writing one cell type over a whole coordinate list, all in bounds:
the write succeeds and the result is a pointwise overlay. -/
theorem setAll_inbounds (W H : ℕ) (v : ℕ) :
    ∀ (cs : List Pos) (g : ℕ × ℕ → ℕ),
      (∀ c ∈ cs, 0 ≤ c.1 ∧ c.1 < (W : ℤ) ∧ 0 ≤ c.2 ∧ c.2 < (H : ℤ)) →
      ∃ g', setAll W H g cs v = some g' ∧
        ∀ q : ℕ × ℕ, g' q = if ((q.1 : ℤ), (q.2 : ℤ)) ∈ cs then v else g q := by
  intro cs
  induction cs with
  | nil =>
    intro g _
    exact ⟨g, rfl, by simp⟩
  | cons c cs ih =>
    intro g hb
    obtain ⟨h1, h2, h3, h4⟩ := hb c (List.mem_cons_self c cs)
    have hset : gridSet W H g c v =
        some (fun q => if q = (c.1.toNat, c.2.toNat) then v else g q) := by
      unfold gridSet
      rw [pyIndex_of_nonneg_lt h1 h2, pyIndex_of_nonneg_lt h3 h4]
    obtain ⟨g', hg', hq⟩ := ih (fun q => if q = (c.1.toNat, c.2.toNat) then v else g q)
      (fun c' hc' => hb c' (List.mem_cons_of_mem _ hc'))
    refine ⟨g', ?_, ?_⟩
    · unfold setAll at hg' ⊢
      rw [List.foldlM_cons, hset]
      simpa using hg'
    · intro q
      rw [hq q]
      by_cases hmem : ((q.1 : ℤ), (q.2 : ℤ)) ∈ cs
      · rw [if_pos hmem, if_pos (List.mem_cons_of_mem _ hmem)]
      · rw [if_neg hmem]
        by_cases heq : ((q.1 : ℤ), (q.2 : ℤ)) = c
        · have hqe : q = (c.1.toNat, c.2.toNat) := by
            have e1 : (q.1 : ℤ) = c.1 := by rw [← heq]
            have e2 : (q.2 : ℤ) = c.2 := by rw [← heq]
            have : q.1 = c.1.toNat := by omega
            have : q.2 = c.2.toNat := by omega
            exact Prod.ext (by omega) (by omega)
          rw [if_pos hqe, if_pos (heq ▸ List.mem_cons_self c cs)]
        · have hqe : q ≠ (c.1.toNat, c.2.toNat) := by
            intro he
            apply heq
            have e1 : q.1 = c.1.toNat := by rw [he]
            have e2 : q.2 = c.2.toNat := by rw [he]
            have : (q.1 : ℤ) = c.1 := by omega
            have : (q.2 : ℤ) = c.2 := by omega
            exact Prod.ext (by omega) (by omega)
          rw [if_neg hqe, if_neg (by
            intro hc
            rcases List.mem_cons.mp hc with h | h
            · exact heq h
            · exact hmem h)]

/-- Claim C10: `load_layout` writes walls, then fires, then exits, so on
in-bounds records the final grid shows the last-applied type — exit over
fire over wall — and every cell named in no collection is `EMPTY`. -/
theorem load_layout_grid_write_order (W H : ℕ) (walls fires exits_ : List Pos)
    (hb : ∀ c ∈ walls ++ fires ++ exits_,
      0 ≤ c.1 ∧ c.1 < (W : ℤ) ∧ 0 ≤ c.2 ∧ c.2 < (H : ℤ)) :
    ∃ g, load_layout_grid W H walls fires exits_ = some g ∧
      ∀ q : ℕ × ℕ, g q =
        if ((q.1 : ℤ), (q.2 : ℤ)) ∈ exits_ then EXIT
        else if ((q.1 : ℤ), (q.2 : ℤ)) ∈ fires then FIRE
        else if ((q.1 : ℤ), (q.2 : ℤ)) ∈ walls then WALL
        else EMPTY := by
  have hbw : ∀ c ∈ walls, 0 ≤ c.1 ∧ c.1 < (W : ℤ) ∧ 0 ≤ c.2 ∧ c.2 < (H : ℤ) :=
    fun c hc => hb c (by simp [hc])
  have hbf : ∀ c ∈ fires, 0 ≤ c.1 ∧ c.1 < (W : ℤ) ∧ 0 ≤ c.2 ∧ c.2 < (H : ℤ) :=
    fun c hc => hb c (by simp [hc])
  have hbe : ∀ c ∈ exits_, 0 ≤ c.1 ∧ c.1 < (W : ℤ) ∧ 0 ≤ c.2 ∧ c.2 < (H : ℤ) :=
    fun c hc => hb c (by simp [hc])
  obtain ⟨g1, e1, c1⟩ := setAll_inbounds W H WALL walls (fun _ => EMPTY) hbw
  obtain ⟨g2, e2, c2⟩ := setAll_inbounds W H FIRE fires g1 hbf
  obtain ⟨g3, e3, c3⟩ := setAll_inbounds W H EXIT exits_ g2 hbe
  refine ⟨g3, ?_, ?_⟩
  · unfold load_layout_grid
    rw [e1]
    simp only [Option.bind_eq_bind, Option.some_bind, bind, e2, e3]
  · intro q
    rw [c3 q, c2 q, c1 q]

/-- Witness for C10: a 2×2 record where `(0,0)` is listed both as a wall and
as a fire (fire wins), and `(0,1)` is an exit; `(1,1)` is in no collection. -/
theorem load_layout_grid_write_order_witness :
    (∀ c ∈ ([(0, 0)] ++ [(0, 0)] ++ [(0, 1)] : List Pos),
      0 ≤ c.1 ∧ c.1 < (2 : ℤ) ∧ 0 ≤ c.2 ∧ c.2 < (2 : ℤ)) ∧
    ∃ g, load_layout_grid 2 2 [(0, 0)] [(0, 0)] [(0, 1)] = some g ∧
      ∀ q : ℕ × ℕ, g q =
        if ((q.1 : ℤ), (q.2 : ℤ)) ∈ ([(0, 1)] : List Pos) then EXIT
        else if ((q.1 : ℤ), (q.2 : ℤ)) ∈ ([(0, 0)] : List Pos) then FIRE
        else if ((q.1 : ℤ), (q.2 : ℤ)) ∈ ([(0, 0)] : List Pos) then WALL
        else EMPTY :=
  ⟨by decide, load_layout_grid_write_order 2 2 [(0, 0)] [(0, 0)] [(0, 1)] (by decide)⟩

/-- Claim C8 is false on the code (counterexample): a parsed width of `0`
is accepted as-is — the run starts with non-positive width — and
`load_layout` applies the out-of-bounds wall coordinate `(-1, 0)` to the
state (Python wraps it to the last column) instead of rejecting or
skipping it. -/
theorem config_validation_counterexample :
    readGridSize (some 0) (some 5) = (0, 5) ∧
      (load_layout_grid 3 3 [(-1, 0)] [] []).map (fun g => g (2, 0)) = some WALL := by
  exact ⟨rfl, by decide⟩

/-- Claim C8 as amended: dimension input is only guarded against parse
failure (unparseable input falls back to the 30×20 default, any parsed
integers — including non-positive ones — are used unchecked), and
`load_layout` applies coordinates with raw Python index semantics: negative
coordinates wrap to the opposite edge, coordinates at or beyond the
dimension raise an uncaught `IndexError`; nothing is rejected, skipped or
counted before the run starts. -/
theorem config_inputs_unvalidated :
    (∀ w h : ℤ, readGridSize (some w) (some h) = (w, h)) ∧
      readGridSize none none = (30, 20) ∧
      (∀ (L : ℕ) (i : ℤ), -(L : ℤ) ≤ i → i < 0 → pyIndex L i = some (i + L).toNat) ∧
      (∀ (L : ℕ) (i : ℤ), (L : ℤ) ≤ i → pyIndex L i = none) := by
  refine ⟨fun w h => rfl, rfl, ?_, ?_⟩
  · intro L i hlo hhi
    unfold pyIndex
    rw [if_neg (by omega), if_pos ⟨hlo, hhi⟩]
  · intro L i hge
    unfold pyIndex
    rw [if_neg (by omega), if_neg (by omega)]

/-- Witness for the amended C8 at concrete inputs. -/
theorem config_inputs_unvalidated_witness :
    (-(3 : ℤ) ≤ -1 ∧ (-1 : ℤ) < 0 ∧ (3 : ℤ) ≤ 5) ∧
      readGridSize (some 0) (some 7) = (0, 7) ∧
      readGridSize none none = (30, 20) ∧
      pyIndex 3 (-1) = some 2 ∧
      pyIndex 3 5 = none :=
  ⟨by decide, config_inputs_unvalidated.1 0 7, config_inputs_unvalidated.2.1,
    config_inputs_unvalidated.2.2.1 3 (-1) (by decide) (by decide),
    config_inputs_unvalidated.2.2.2 3 5 (by decide)⟩

/-- Witness for C2 at a concrete input: a healthy agent standing on a smoke
cell at 100 °C with all counters zero. -/
theorem health_checks_never_downgrade_witness :
    HInv ⟨HEALTHY, 0, 0, 0⟩ ∧
      (List.Chain' (· ≤ ·)
        ((⟨HEALTHY, 0, 0, 0⟩ : AgentHState).health ::
          (healthStep SMOKE 100 ⟨HEALTHY, 0, 0, 0⟩).2) ∧
        HInv (healthStep SMOKE 100 ⟨HEALTHY, 0, 0, 0⟩).1) :=
  ⟨by decide, health_checks_never_downgrade.2 SMOKE 100 ⟨HEALTHY, 0, 0, 0⟩ (by decide)⟩

/-! ## C3 and C7: the movement resolver -/

theorem getD_eq_get {l : List Pos} {i : ℕ} (h : i < l.length) (d : Pos) :
    l.getD i d = l.get ⟨i, h⟩ := by
  rw [List.getD_eq_getElem?_getD, List.getElem?_eq_getElem h, Option.getD_some,
    List.get_eq_getElem]

theorem getD_mem_of_lt {l : List Pos} {i : ℕ} (h : i < l.length) (d : Pos) :
    l.getD i d ∈ l := by
  rw [getD_eq_get h]
  exact List.get_mem l i h

theorem getD_mod_mem (l : List Pos) (k : ℕ) (d : Pos) (h : l ≠ []) :
    l.getD (k % l.length) d ∈ l :=
  getD_mem_of_lt (Nat.mod_lt _ (List.length_pos.mpr h)) d

/-- The panic probability used in `declare` is exactly `panic_lvl / 10.0`. -/
theorem panic_prob_eq_div (n : ℕ) : (mkRat n 10 : ℚ) = (n : ℚ) / 10 := by
  rw [Rat.mkRat_eq_div]
  norm_num

/-- A candidate cell is in bounds, not a wall, and unoccupied at tick start. -/
theorem mem_candsOf {R : ResolveIn} {p t : Pos} (h : t ∈ candsOf R p) :
    in_bounds R.W R.H t ∧ R.g t ≠ WALL ∧ ¬ t ∈ R.agents := by
  unfold candsOf at h
  rw [List.mem_filterMap] at h
  obtain ⟨o, -, ho⟩ := h
  split_ifs at ho with hc
  cases ho
  exact hc

theorem mem_sortCands {R : ResolveIn} {p t : Pos} (h : t ∈ sortCands R p) :
    t ∈ candsOf R p :=
  (List.perm_insertionSort _ _).mem_iff.mp h

theorem sortCands_length (R : ResolveIn) (p : Pos) :
    (sortCands R p).length = (candsOf R p).length :=
  (List.perm_insertionSort _ _).length_eq

theorem routeMove_normal {R : ResolveIn} {u t : Pos}
    (h : routeMove R u = Intent.normal t) : u = t := by
  unfold routeMove at h
  split_ifs at h
  cases h
  rfl

/-- A declared normal move always targets a candidate cell. -/
theorem declare_normal_mem {R : ResolveIn} {idx : ℕ} {p t : Pos}
    (h : (declare R idx p).1 = Intent.normal t) : t ∈ candsOf R p := by
  simp only [declare] at h
  split_ifs at h with h1 h2 h3 h4 h5 h6
  · -- panic branch
    have h51 := h5.1
    have hmem : ((sortCands R p).drop 1).getD
        (R.choice idx % ((sortCands R p).drop 1).length) (0, 0) ∈ (sortCands R p).drop 1 := by
      apply getD_mod_mem
      have hlen := sortCands_length R p
      have : 0 < ((sortCands R p).drop 1).length := by
        rw [List.length_drop]
        omega
      exact List.length_pos.mp this
    have := routeMove_normal h
    rw [← this]
    exact mem_sortCands (List.mem_of_mem_drop hmem)
  · -- best branch
    have hne : sortCands R p ≠ [] := by
      have hlen := sortCands_length R p
      have hc : 0 < (candsOf R p).length := List.length_pos.mpr h4
      exact List.length_pos.mp (by omega)
    have := routeMove_normal h
    rw [← this]
    exact mem_sortCands (List.head!_mem_self hne)

theorem winnerMove_some {R : ResolveIn} {i : ℕ} {t : Pos}
    (h : winnerMove R i = some t) :
    intentOf R i = Intent.normal t ∧ winnerAt R t = some i := by
  unfold winnerMove at h
  rcases hI : intentOf R i with _ | u | e
  · rw [hI] at h
    cases h
  · rw [hI] at h
    dsimp only at h
    split_ifs at h with hwin
    obtain rfl : u = t := by injection h
    exact ⟨rfl, hwin⟩
  · rw [hI] at h
    cases h

/-- Claim C3: if at the start of the tick the active agents are pairwise on
distinct cells and none stands on a wall, then after the Stage 4 commit the
new agent list again has no duplicate cell and no agent on a wall — for
every outcome of the random draws (`rand`, `choice`, `shuffle`) and every
Stage 0 incapacitation set. -/
theorem commit_keeps_agents_disjoint_and_off_walls (R : ResolveIn)
    (hnd : R.agents.Nodup)
    (hw : ∀ p ∈ R.agents, R.g p ≠ WALL) :
    (commitAgents R).Nodup ∧ ∀ p ∈ commitAgents R, R.g p ≠ WALL := by
  have hnew : ∀ i t, winnerMove R i = some t → R.g t ≠ WALL ∧ ¬ t ∈ R.agents := by
    intro i t h
    obtain ⟨hI, -⟩ := winnerMove_some h
    obtain ⟨-, hW, hocc⟩ := mem_candsOf (declare_normal_mem hI)
    exact ⟨hW, hocc⟩
  constructor
  · unfold commitAgents
    refine List.pairwise_filterMap.mpr ?_
    refine (List.pairwise_lt_range (nIdx R)).imp_of_mem ?_
    intro i j hi hj hlt v hvi v' hvj
    rw [Option.mem_def] at hvi hvj
    by_cases hri : i ∈ removedIdx R
    · rw [if_pos hri] at hvi
      cases hvi
    rw [if_neg hri] at hvi
    by_cases hii : i ∈ R.incap
    · rw [if_pos hii] at hvi
      cases hvi
    rw [if_neg hii] at hvi
    by_cases hrj : j ∈ removedIdx R
    · rw [if_pos hrj] at hvj
      cases hvj
    rw [if_neg hrj] at hvj
    by_cases hij : j ∈ R.incap
    · rw [if_pos hij] at hvj
      cases hvj
    rw [if_neg hij] at hvj
    injection hvi with hvi
    injection hvj with hvj
    subst hvi
    subst hvj
    have hi' : i < nIdx R := List.mem_range.mp hi
    have hj' : j < nIdx R := List.mem_range.mp hj
    intro he
    rcases hwi : winnerMove R i with _ | t <;> rcases hwj : winnerMove R j with _ | u <;>
      simp only [hwi, hwj, Option.getD_none, Option.getD_some] at he
    · -- both stay at distinct old positions
      rw [getD_eq_get hi', getD_eq_get hj'] at he
      have h2 := hnd.get_inj_iff.mp he
      have h3 : i = j := congrArg Fin.val h2
      omega
    · -- i stays on an occupied cell, j moves to an unoccupied one
      exact (hnew j u hwj).2 (by rw [← he]; exact getD_mem_of_lt hi' (0, 0))
    · exact (hnew i t hwi).2 (by rw [he]; exact getD_mem_of_lt hj' (0, 0))
    · -- two winners of the same normal cell are impossible
      obtain ⟨-, hVi⟩ := winnerMove_some hwi
      obtain ⟨-, hVj⟩ := winnerMove_some hwj
      rw [he, hVj] at hVi
      injection hVi with hVi
      omega
  · intro p hp
    unfold commitAgents at hp
    rw [List.mem_filterMap] at hp
    obtain ⟨i, hi, hf⟩ := hp
    have hi' : i < nIdx R := List.mem_range.mp hi
    by_cases hri : i ∈ removedIdx R
    · rw [if_pos hri] at hf
      cases hf
    rw [if_neg hri] at hf
    by_cases hii : i ∈ R.incap
    · rw [if_pos hii] at hf
      cases hf
    rw [if_neg hii] at hf
    injection hf with hf
    subst hf
    rcases hwi : winnerMove R i with _ | t
    · rw [Option.getD_none]
      exact hw _ (getD_mem_of_lt hi' (0, 0))
    · rw [Option.getD_some]
      exact (hnew i t hwi).1

/-- Witness for C3 on the concrete resolver input `Rhem`. -/
theorem commit_keeps_agents_disjoint_and_off_walls_witness :
    (Rhem.agents.Nodup ∧ ∀ p ∈ Rhem.agents, Rhem.g p ≠ WALL) ∧
      ((commitAgents Rhem).Nodup ∧ ∀ p ∈ commitAgents Rhem, Rhem.g p ≠ WALL) :=
  ⟨⟨by decide, by decide⟩,
    commit_keeps_agents_disjoint_and_off_walls Rhem (by decide) (by decide)⟩

/-- Claim C7 is false on the code (counterexample): in `Rhem`, the agent at
`(1,1)` (index 2, panic 10, draw 0) has current distance 2 while both of its
candidates `(2,1)` and `(1,2)` have distance 3 — its best candidate is NOT
strictly better than its own cell — yet the panic branch fires and the agent
declares a lateral move to the non-best candidate `(1,2)`. -/
theorem panic_move_without_better_candidate :
    declare Rhem 2 (1, 1) = (Intent.normal (1, 2), true) ∧
      sortCands Rhem (1, 1) = [(2, 1), (1, 2)] ∧
      optLtB (Rhem.dm (2, 1)) (Rhem.dm (1, 1)) = false ∧
      Rhem.dm (1, 1) = some 2 ∧ Rhem.dm (2, 1) = some 3 ∧ Rhem.dm (1, 2) = some 3 := by
  exact ⟨by decide, by decide, by decide, by decide, by decide, by decide⟩

/-- Claim C7 as amended: the panic guard is `len(cands) > 1 and draw <
panic/10` — it does not require a strictly better candidate.  What does
hold: a panic-induced lateral move fires only when a SECOND candidate
exists, and it always lands on one of the non-best (sorted-tail)
candidates. -/
theorem panic_move_needs_second_candidate (R : ResolveIn) (idx : ℕ) (p : Pos)
    (h : (declare R idx p).2 = true) :
    1 < (candsOf R p).length ∧
      ∃ t, (declare R idx p).1 = routeMove R t ∧ t ∈ (sortCands R p).drop 1 := by
  simp only [declare] at h ⊢
  split_ifs at h ⊢ with h1 h2 h3 h4 h5
  -- every branch except the panic one contradicts `h`
  have h51 := h5.1
  refine ⟨h51, ⟨((sortCands R p).drop 1).getD
    (R.choice idx % ((sortCands R p).drop 1).length) (0, 0), rfl, ?_⟩⟩
  apply getD_mod_mem
  have hlen := sortCands_length R p
  have : 0 < ((sortCands R p).drop 1).length := by
    rw [List.length_drop]
    omega
  exact List.length_pos.mp this

/-- Witness for the amended C7, applying it to the `Rhem` agent whose panic
branch fires. -/
theorem panic_move_needs_second_candidate_witness :
    (declare Rhem 2 (1, 1)).2 = true ∧
      (1 < (candsOf Rhem (1, 1)).length ∧
        ∃ t, (declare Rhem 2 (1, 1)).1 = routeMove Rhem t ∧
          t ∈ (sortCands Rhem (1, 1)).drop 1) :=
  ⟨by decide, panic_move_needs_second_candidate Rhem 2 (1, 1) (by decide)⟩

/-- Witness for C6: the ambient field on an empty grid. -/
theorem diffuse_temperature_range_witness :
    (∀ p : Pos, AMBIENT_TEMP ≤ (fun _ : Pos => AMBIENT_TEMP) p ∧
        (fun _ : Pos => AMBIENT_TEMP) p ≤ FIRE_TEMP) ∧
      (AMBIENT_TEMP ≤ diffuse_temperature (fun _ => AMBIENT_TEMP) gEmpty 2 2 (0, 0) ∧
        diffuse_temperature (fun _ => AMBIENT_TEMP) gEmpty 2 2 (0, 0) ≤ FIRE_TEMP) :=
  ⟨fun _ => ⟨le_refl _, by norm_num [AMBIENT_TEMP, FIRE_TEMP]⟩,
    diffuse_temperature_range.1 (fun _ => AMBIENT_TEMP) gEmpty 2 2
      (fun _ => ⟨le_refl _, by norm_num [AMBIENT_TEMP, FIRE_TEMP]⟩) (0, 0)⟩

/-- Witness for C9 at the wall cell `(1,1)` of `gWall11`: wall cells are
diffused like any other non-fire cell. -/
theorem diffuse_temperature_eq_weighted_avg_witness :
    (in_bounds 3 3 ((1, 1) : Pos) ∧ gWall11 (1, 1) ≠ FIRE ∧
        ∃ o ∈ nbrOffsets, in_bounds 3 3 (stepP (1, 1) o)) ∧
      diffuse_temperature (fun _ => 30) gWall11 3 3 (1, 1) =
        spec_weighted_avg 3 3 gWall11 (fun _ => 30) (1, 1) +
          (AMBIENT_TEMP - spec_weighted_avg 3 3 gWall11 (fun _ => 30) (1, 1)) * (2 / 100) :=
  ⟨⟨by decide, by decide, by decide⟩,
    diffuse_temperature_eq_weighted_avg (fun _ => 30) gWall11 3 3 (1, 1)
      (by decide) (by decide) (by decide)⟩

/-! ## C4: correctness of the BFS distance map -/

theorem relaxOne_preserve (W H : ℤ) (g : Pos → ℕ) (k : ℕ) (p : Pos)
    (st : List Pos × (Pos → Option ℕ)) (o : Pos) {c : Pos} {n : ℕ}
    (h : st.2 c = some n) : (relaxOne W H g k p st o).2 c = some n := by
  unfold relaxOne
  split_ifs with hc
  · by_cases hce : c = stepP p o
    · rw [hce] at h
      rw [h] at hc
      exact absurd hc.2.2 (by simp)
    · show (if c = stepP p o then some (k + 1) else st.2 c) = some n
      rw [if_neg hce]
      exact h
  · exact h

theorem foldl_relax_preserve (W H : ℤ) (g : Pos → ℕ) (k : ℕ) (p : Pos) :
    ∀ (os : List Pos) (st : List Pos × (Pos → Option ℕ)) {c : Pos} {n : ℕ},
      st.2 c = some n → (os.foldl (relaxOne W H g k p) st).2 c = some n := by
  intro os
  induction os with
  | nil => intro st c n h; exact h
  | cons o os ih =>
    intro st c n h
    exact ih (relaxOne W H g k p st o) (relaxOne_preserve W H g k p st o h)

/-- Properties of the neighbor-relaxation fold of one BFS pop: it extends
the map, every assignment is either old or a fresh `k+1` at an enqueued
admissible neighbor of `p`, the queue only grows by freshly assigned cells,
and after the fold every admissible neighbor of `p` (for a processed
offset) is assigned a value at most `k+1`. -/
theorem relax_fold_props (W H : ℤ) (g : Pos → ℕ) (k : ℕ) (p : Pos)
    (d : Pos → Option ℕ) (rest : List Pos)
    (hOldBound : ∀ c j, d c = some j → j ≤ k + 1) :
    ∀ (os : List Pos) (st : List Pos × (Pos → Option ℕ)),
      (∀ o ∈ os, o ∈ nbrOffsets) →
      (∀ c n, d c = some n → st.2 c = some n) →
      (∀ c n, st.2 c = some n → d c = some n ∨
        (n = k + 1 ∧ d c = none ∧ c ∈ st.1 ∧
          ∃ o ∈ nbrOffsets, c = stepP p o ∧ in_bounds W H c ∧ g c ≠ WALL)) →
      (∃ nl, st.1 = rest ++ nl ∧ ∀ c ∈ nl, st.2 c = some (k + 1)) →
      ((∀ c n, d c = some n → (os.foldl (relaxOne W H g k p) st).2 c = some n) ∧
        (∀ c n, (os.foldl (relaxOne W H g k p) st).2 c = some n → d c = some n ∨
          (n = k + 1 ∧ d c = none ∧ c ∈ (os.foldl (relaxOne W H g k p) st).1 ∧
            ∃ o ∈ nbrOffsets, c = stepP p o ∧ in_bounds W H c ∧ g c ≠ WALL)) ∧
        (∃ nl, (os.foldl (relaxOne W H g k p) st).1 = rest ++ nl ∧
          ∀ c ∈ nl, (os.foldl (relaxOne W H g k p) st).2 c = some (k + 1)) ∧
        (∀ o ∈ os, in_bounds W H (stepP p o) → g (stepP p o) ≠ WALL →
          ∃ m ≤ k + 1, (os.foldl (relaxOne W H g k p) st).2 (stepP p o) = some m)) := by
  intro os
  induction os with
  | nil =>
    intro st _ hM1 hM2 hM3
    refine ⟨hM1, hM2, hM3, ?_⟩
    intro o ho
    exact absurd ho (List.not_mem_nil o)
  | cons o os ih =>
    intro st hsub hM1 hM2 hM3
    obtain ⟨nl, hnl, hnlv⟩ := hM3
    -- the one-step state
    have hsub' : ∀ o' ∈ os, o' ∈ nbrOffsets := fun o' ho' => hsub o' (List.mem_cons_of_mem o ho')
    have hoin : o ∈ nbrOffsets := hsub o (List.mem_cons_self o os)
    have hstep1 : ∀ c n, d c = some n → (relaxOne W H g k p st o).2 c = some n :=
      fun c n hcn => relaxOne_preserve W H g k p st o (hM1 c n hcn)
    have hstep2 : ∀ c n, (relaxOne W H g k p st o).2 c = some n → d c = some n ∨
        (n = k + 1 ∧ d c = none ∧ c ∈ (relaxOne W H g k p st o).1 ∧
          ∃ o' ∈ nbrOffsets, c = stepP p o' ∧ in_bounds W H c ∧ g c ≠ WALL) := by
      intro c n hcn
      unfold relaxOne at hcn ⊢
      split_ifs at hcn ⊢ with hc
      · dsimp only at hcn ⊢
        by_cases hce : c = stepP p o
        · rw [if_pos hce] at hcn
          injection hcn with hcn
          refine Or.inr ⟨hcn.symm, ?_, ?_, o, hoin, hce, ?_, ?_⟩
          · rcases hd : d c with _ | j
            · rfl
            · have := hM1 c j hd
              rw [hce] at this
              rw [hc.2.2] at this
              cases this
          · rw [List.mem_append]
            right
            rw [hce]
            exact List.mem_singleton.mpr rfl
          · rw [hce]
            exact hc.1
          · rw [hce]
            exact hc.2.1
        · rw [if_neg hce] at hcn
          rcases hM2 c n hcn with h | ⟨h1, h2, h3, h4⟩
          · exact Or.inl h
          · exact Or.inr ⟨h1, h2, by rw [List.mem_append]; exact Or.inl h3, h4⟩
      · exact hM2 c n hcn
    have hstep3 : ∃ nl', (relaxOne W H g k p st o).1 = rest ++ nl' ∧
        ∀ c ∈ nl', (relaxOne W H g k p st o).2 c = some (k + 1) := by
      unfold relaxOne
      split_ifs with hc
      · refine ⟨nl ++ [stepP p o], ?_, ?_⟩
        · dsimp only
          rw [hnl, List.append_assoc]
        · intro c hcm
          dsimp only
          by_cases hce : c = stepP p o
          · rw [if_pos hce]
          · rw [if_neg hce]
            rcases List.mem_append.mp hcm with h | h
            · exact hnlv c h
            · rw [List.mem_singleton] at h
              exact absurd h hce
      · exact ⟨nl, hnl, hnlv⟩
    obtain ⟨ih1, ih2, ih3, ih4⟩ := ih (relaxOne W H g k p st o) hsub' hstep1 hstep2 hstep3
    rw [List.foldl_cons]
    refine ⟨ih1, ih2, ih3, ?_⟩
    intro o' ho' hb hwall
    rcases List.mem_cons.mp ho' with rfl | ho'
    · -- the freshly processed offset: assigned at most k+1 after this step,
      -- and the fold preserves assignments
      have hassigned : ∃ m ≤ k + 1, (relaxOne W H g k p st o').2 (stepP p o') = some m := by
        unfold relaxOne
        split_ifs with hc
        · refine ⟨k + 1, le_refl _, ?_⟩
          dsimp only
          rw [if_pos rfl]
        · push_neg at hc
          rcases hst : st.2 (stepP p o') with _ | j
          · exact absurd hst (hc hb hwall)
          · refine ⟨j, ?_, rfl⟩
            rcases hM2 _ j hst with h | ⟨h1, -⟩
            · exact hOldBound _ j h
            · omega
      obtain ⟨m, hm, hmv⟩ := hassigned
      exact ⟨m, hm, foldl_relax_preserve W H g k p os _ hmv⟩
    · exact ih4 o' ho' hb hwall

/-- Popping the head of the queue preserves the BFS invariant, and the
distance map only grows. -/
theorem bfsInv_pop (W H : ℤ) (g : Pos → ℕ) (exits : List Pos)
    {p : Pos} {rest : List Pos} {d : Pos → Option ℕ} {k : ℕ}
    (hInv : BfsInv W H g exits (p :: rest) d) (hk : d p = some k) :
    BfsInv W H g exits (relaxAll W H g k p (rest, d)).1 (relaxAll W H g k p (rest, d)).2 ∧
      (∀ c n, d c = some n → (relaxAll W H g k p (rest, d)).2 c = some n) := by
  have hdvp : dval d p = k := by simp [dval, hk]
  have hOldBound : ∀ c j, d c = some j → j ≤ k + 1 := by
    intro c j h
    have := hInv.bounded c j h p (List.mem_cons_self p rest)
    omega
  have hheadmin : ∀ v ∈ rest, k ≤ dval d v := by
    intro v hv
    have := (List.pairwise_cons.mp hInv.qSorted).1 v hv
    omega
  obtain ⟨hP1, hP2, hP3, hP4⟩ := relax_fold_props W H g k p d rest hOldBound nbrOffsets
    (rest, d) (fun o ho => ho) (fun c n h => h)
    (fun c n h => Or.inl h) ⟨[], (List.append_nil rest).symm, fun c hc => absurd hc (List.not_mem_nil c)⟩
  rw [relaxAll] at *
  obtain ⟨nl, hnl, hnlv⟩ := hP3
  set st' := List.foldl (relaxOne W H g k p) (rest, d) nbrOffsets with hst'
  -- value preservation on previously assigned cells
  have hdv : ∀ c, d c ≠ none → dval st'.2 c = dval d c := by
    intro c hc
    rcases Option.ne_none_iff_exists'.mp hc with ⟨n, hn⟩
    rw [dval, dval, hn, hP1 c n hn]
  have hrest_ass : ∀ c ∈ rest, d c ≠ none :=
    fun c hc => hInv.qAss c (List.mem_cons_of_mem p hc)
  have hnl_val : ∀ c ∈ nl, dval st'.2 c = k + 1 := by
    intro c hc
    rw [dval, hnlv c hc]
    rfl
  refine ⟨⟨?_, ?_, ?_, ?_, ?_⟩, hP1⟩
  · -- qAss
    intro c hc
    rw [hnl] at hc
    rcases List.mem_append.mp hc with h | h
    · rcases Option.ne_none_iff_exists'.mp (hrest_ass c h) with ⟨n, hn⟩
      rw [hP1 c n hn]
      simp
    · rw [hnlv c h]
      simp
  · -- sound
    intro c n hc
    rcases hP2 c n hc with h | ⟨h1, -, -, o, ho, hco, hb, hwall⟩
    · exact hInv.sound c n h
    · subst h1
      rw [hco] at hb hwall ⊢
      exact Reach.step p k o (hInv.sound p k hk) ho hb hwall
  · -- qSorted
    rw [hnl]
    rw [List.pairwise_append]
    refine ⟨?_, ?_, ?_⟩
    · have hsorted := hInv.qSorted.of_cons
      refine hsorted.imp_of_mem ?_
      intro a b ha hb hab
      rw [hdv a (hrest_ass a ha), hdv b (hrest_ass b hb)]
      exact hab
    · apply List.pairwise_of_forall_mem_list
      intro a ha b hb
      rw [hnl_val a ha, hnl_val b hb]
    · intro a ha b hb
      rw [hdv a (hrest_ass a ha), hnl_val b hb]
      rcases Option.ne_none_iff_exists'.mp (hrest_ass a ha) with ⟨na, hna⟩
      have := hInv.bounded a na hna p (List.mem_cons_self p rest)
      rw [dval, hna]
      simp only [Option.getD_some]
      omega
  · -- bounded
    intro c n hc v hv
    rw [hnl] at hv
    rcases List.mem_append.mp hv with hvr | hvn
    · rw [hdv v (hrest_ass v hvr)]
      rcases hP2 c n hc with h | ⟨h1, -, -⟩
      · exact hInv.bounded c n h v (List.mem_cons_of_mem p hvr)
      · have := hheadmin v hvr
        omega
    · rw [hnl_val v hvn]
      rcases hP2 c n hc with h | ⟨h1, -, -⟩
      · have := hOldBound c n h
        omega
      · omega
  · -- closed
    intro c n hc hcq o ho hb hwall
    rcases hP2 c n hc with hold | ⟨h1, -, hmem, -⟩
    · by_cases hcp : c = p
      · subst hcp
        have hkn : n = k := by
          have := hP1 c k hk
          rw [hc] at this
          injection this
        subst hkn
        obtain ⟨m, hm, hmv⟩ := hP4 o ho hb hwall
        exact ⟨m, by omega, hmv⟩
      · have hcnotin : c ∉ p :: rest := by
          intro hmem2
          rcases List.mem_cons.mp hmem2 with h | h
          · exact hcp h
          · apply hcq
            rw [hnl, List.mem_append]
            exact Or.inl h
        obtain ⟨m, hm, hmv⟩ := hInv.closed c n hold hcnotin o ho hb hwall
        exact ⟨m, hm, hP1 _ m hmv⟩
    · exact absurd hmem hcq

/-- Running the BFS loop from an invariant state yields an invariant state
with an empty queue, extending the distance map. -/
theorem bfsLoop_inv (W H : ℤ) (g : Pos → ℕ) (exits : List Pos) :
    ∀ (q : List Pos) (d : Pos → Option ℕ), BfsInv W H g exits q d →
      BfsInv W H g exits [] (bfsLoop W H g q d) ∧
        (∀ c n, d c = some n → bfsLoop W H g q d c = some n) := by
  intro q d
  induction q, d using bfsLoop.induct W H g with
  | case1 d =>
    intro hInv
    rw [bfsLoop]
    exact ⟨hInv, fun c n h => h⟩
  | case2 d p rest hnone ih =>
    intro hInv
    exact absurd hnone (hInv.qAss p (List.mem_cons_self p rest))
  | case3 d p rest k hk st ih =>
    intro hInv
    obtain ⟨hInv', hext⟩ := bfsInv_pop W H g exits hInv hk
    obtain ⟨hfin, hext2⟩ := ih hInv'
    rw [bfsLoop, hk]
    exact ⟨hfin, fun c n h => hext2 c n (hext c n h)⟩

/-- The seeded initial state satisfies the invariant. -/
theorem bfsInv_init (W H : ℤ) (g : Pos → ℕ) (exits : List Pos) :
    BfsInv W H g exits exits (fun c => if c ∈ exits then some 0 else none) := by
  refine ⟨?_, ?_, ?_, ?_, ?_⟩
  · intro p hp
    rw [if_pos hp]
    simp
  · intro p n hp
    split_ifs at hp with hmem
    injection hp with hp
    rw [← hp]
    exact Reach.base p hmem
  · apply List.pairwise_of_forall_mem_list
    intro a ha b hb
    simp [dval, if_pos ha, if_pos hb]
  · intro p n hp v hv
    split_ifs at hp with hmem
    injection hp with hp
    omega
  · intro p n hp hpq o ho hb hwall
    split_ifs at hp with hmem

/-- Soundness and exactness inputs for the final map. -/
theorem compute_distance_map_sound (exits : List Pos) (g : Pos → ℕ) (W H : ℤ) :
    ∀ c n, compute_distance_map exits g W H c = some n → Reach W H g exits c n := by
  intro c n h
  exact (bfsLoop_inv W H g exits exits _ (bfsInv_init W H g exits)).1.sound c n h

/-- Completeness: any cell reachable in `m` steps ends up assigned a value
at most `m`. -/
theorem compute_distance_map_le (exits : List Pos) (g : Pos → ℕ) (W H : ℤ) :
    ∀ c m, Reach W H g exits c m →
      ∃ n ≤ m, compute_distance_map exits g W H c = some n := by
  obtain ⟨hfin, hext⟩ := bfsLoop_inv W H g exits exits _ (bfsInv_init W H g exits)
  intro c m h
  induction h with
  | base p hp =>
    refine ⟨0, le_refl 0, ?_⟩
    exact hext p 0 (if_pos hp)
  | step p n o hr ho hb hwall ih =>
    obtain ⟨j, hj, hassigned⟩ := ih
    obtain ⟨m', hm', h'⟩ := hfin.closed p j hassigned (List.not_mem_nil p) o ho hb hwall
    exact ⟨m', by omega, h'⟩

/-- Membership-respecting exit lists produce the same reachability. -/
theorem reach_congr (W H : ℤ) (g : Pos → ℕ) {e1 e2 : List Pos}
    (h : ∀ c, c ∈ e1 ↔ c ∈ e2) :
    ∀ {c n}, Reach W H g e1 c n → Reach W H g e2 c n := by
  intro c n hr
  induction hr with
  | base p hp => exact Reach.base p ((h p).mp hp)
  | step p n o hr ho hb hwall ih => exact Reach.step p n o ih ho hb hwall

/-- Claim C4: `compute_distance_map` assigns 0 to every exit cell; a cell is
assigned `n` exactly when `n` is the length of a shortest path from the exit
set through in-bounds non-wall cells (hazard cells traversable, only walls
block); unreachable cells stay at infinity (`none`); and the resulting field
depends only on the SET of exits, not on their enumeration order. -/
theorem compute_distance_map_correct (exits : List Pos) (g : Pos → ℕ) (W H : ℤ)
    (hex : ∀ e ∈ exits, in_bounds W H e) :
    (∀ e ∈ exits, compute_distance_map exits g W H e = some 0) ∧
      (∀ c n, compute_distance_map exits g W H c = some n ↔
        (Reach W H g exits c n ∧ ∀ m, Reach W H g exits c m → n ≤ m)) ∧
      (∀ c, compute_distance_map exits g W H c = none ↔
        ∀ n, ¬ Reach W H g exits c n) ∧
      (∀ exits', (∀ c, c ∈ exits' ↔ c ∈ exits) →
        ∀ c, compute_distance_map exits' g W H c = compute_distance_map exits g W H c) := by
  have hchar : ∀ (ex : List Pos) (c : Pos) (n : ℕ),
      compute_distance_map ex g W H c = some n ↔
        (Reach W H g ex c n ∧ ∀ m, Reach W H g ex c m → n ≤ m) := by
    intro ex c n
    constructor
    · intro h
      refine ⟨compute_distance_map_sound ex g W H c n h, ?_⟩
      intro m hm
      obtain ⟨n', hn', h'⟩ := compute_distance_map_le ex g W H c m hm
      rw [h] at h'
      injection h' with h'
      omega
    · rintro ⟨hr, hleast⟩
      obtain ⟨n', hn', h'⟩ := compute_distance_map_le ex g W H c n hr
      have := hleast n' (compute_distance_map_sound ex g W H c n' h')
      have : n' = n := by omega
      rw [← this]
      exact h'
  have hnone : ∀ (ex : List Pos) (c : Pos),
      compute_distance_map ex g W H c = none ↔ ∀ n, ¬ Reach W H g ex c n := by
    intro ex c
    constructor
    · intro h n hr
      obtain ⟨n', -, h'⟩ := compute_distance_map_le ex g W H c n hr
      rw [h] at h'
      cases h'
    · intro h
      rcases hc : compute_distance_map ex g W H c with _ | n
      · rfl
      · exact absurd (compute_distance_map_sound ex g W H c n hc) (h n)
  refine ⟨?_, hchar exits, hnone exits, ?_⟩
  · intro e he
    obtain ⟨hfin, hext⟩ := bfsLoop_inv W H g exits exits _ (bfsInv_init W H g exits)
    exact hext e 0 (if_pos he)
  · intro exits' hmemiff c
    rcases hc : compute_distance_map exits' g W H c with _ | n
    · rcases hc2 : compute_distance_map exits g W H c with _ | n2
      · rfl
      · have := compute_distance_map_sound exits g W H c n2 hc2
        have := reach_congr W H g (fun c' => (hmemiff c').symm) this
        exact absurd this ((hnone exits' c).mp hc n2)
    · obtain ⟨hr, hleast⟩ := (hchar exits' c n).mp hc
      refine ((hchar exits c n).mpr ⟨reach_congr W H g hmemiff hr, ?_⟩).symm
      intro m hm
      exact hleast m (reach_congr W H g (fun c' => (hmemiff c').symm) hm)

/-- Witness for C4 on a concrete 2×2 empty grid with a single exit at the
origin. -/
theorem compute_distance_map_correct_witness :
    (∀ e ∈ ([(0, 0)] : List Pos), in_bounds 2 2 e) ∧
      ((∀ e ∈ ([(0, 0)] : List Pos),
          compute_distance_map [(0, 0)] gEmpty 2 2 e = some 0) ∧
        (∀ c n, compute_distance_map [(0, 0)] gEmpty 2 2 c = some n ↔
          (Reach 2 2 gEmpty [(0, 0)] c n ∧ ∀ m, Reach 2 2 gEmpty [(0, 0)] c m → n ≤ m)) ∧
        (∀ c, compute_distance_map [(0, 0)] gEmpty 2 2 c = none ↔
          ∀ n, ¬ Reach 2 2 gEmpty [(0, 0)] c n) ∧
        (∀ exits', (∀ c, c ∈ exits' ↔ c ∈ ([(0, 0)] : List Pos)) →
          ∀ c, compute_distance_map exits' gEmpty 2 2 c =
            compute_distance_map [(0, 0)] gEmpty 2 2 c)) :=
  ⟨by decide, compute_distance_map_correct [(0, 0)] gEmpty 2 2 (by decide)⟩

end Evac
